import Mathlib

/-!
Shallow embedding of the voice-conversation browser app: the data model of
`types.ts`, the audio capture/playback service (`createBlob`,
`getOutputAudioContext`, the `startConversation` live-session `onmessage`
handler, `generateSpeech`), and the `App` component's message / error / file
handlers.  Times and sample values are modelled as rationals (the browser
computes with IEEE doubles; every algebraic fact proved here uses only
`max`, `+` and comparisons on exactly representable values).  Stateful
handlers become explicit state-passing functions; fallible code returns
`Except`.
-/

namespace Voice

/-- Source `types.ts`: the `author` field of `TranscriptionEntry`, a union of the
two string literals `'user' | 'gemini'`. -/
inductive Author where
  | user
  | gemini
deriving DecidableEq, Repr, Fintype

/-- Source `types.ts`: `interface TranscriptionEntry { author: 'user' | 'gemini'; text: string; }`. -/
structure TranscriptionEntry where
  author : Author
  text : String
deriving DecidableEq, Repr

/-- Source `types.ts`: `enum AppState { IDLE, CONNECTING, CONNECTED, ERROR }`. -/
inductive AppState where
  | IDLE
  | CONNECTING
  | CONNECTED
  | ERROR
deriving DecidableEq, Repr, Fintype

/-- Source `geminiService`: `const INPUT_SAMPLE_RATE = 16000`. -/
def INPUT_SAMPLE_RATE : ℕ := 16000

/-- Source `geminiService`: `const OUTPUT_SAMPLE_RATE = 24000`. -/
def OUTPUT_SAMPLE_RATE : ℕ := 24000

/-- Source `geminiService`: `const SCRIPT_PROCESSOR_BUFFER_SIZE = 4096`. -/
def SCRIPT_PROCESSOR_BUFFER_SIZE : ℕ := 4096

/-- A `LiveServerMessage` as consumed by the `onmessage` handler, reduced to
the fields the handler reads: `audioDur = some d` stands for
`serverContent?.modelTurn?.parts[0]?.inlineData?.data` being a (truthy)
base64 audio payload whose decoded `AudioBuffer` has duration `d`;
`interrupted` for `serverContent?.interrupted`; the two transcription fields
for `serverContent?.inputTranscription?.text ?? null` and
`serverContent?.outputTranscription?.text ?? null`; `turnComplete` for
`!!serverContent?.turnComplete`. -/
structure ServerMessage where
  audioDur : Option ℚ
  interrupted : Bool
  inputTranscription : Option String
  outputTranscription : Option String
  turnComplete : Bool
deriving DecidableEq, Repr

/-- The mutable state captured by `startConversation`'s `onmessage` closure:
`nextStartTime`, the insertion-ordered set `sources` of pending
`AudioBufferSourceNode`s (represented by numeric ids), and a counter
supplying the id of the next created source node. -/
structure PlaybackState where
  nextStartTime : ℚ
  sources : List ℕ
  counter : ℕ
deriving DecidableEq, Repr

/-- Everything one `onmessage` call does: the successor state, the sources
it started (id and scheduled start time), the sources it stopped, and the
arguments it passes to `callbacks.onMessage`. -/
structure StepResult where
  state : PlaybackState
  started : List (ℕ × ℚ)
  stopped : List ℕ
  cbInput : Option String
  cbOutput : Option String
  cbTurnComplete : Bool
deriving DecidableEq, Repr

/-- The `onmessage` callback of `startConversation` (audio branch, then the
`interrupted` branch, then transcript extraction), at output-context time
`currentTime`.  The audio branch sets
`nextStartTime = max nextStartTime currentTime`, starts a fresh source at
that time, advances `nextStartTime` by the decoded buffer's duration and
adds the source to `sources`; the `interrupted` branch then stops every
source in `sources`, clears the set and resets `nextStartTime` to `0`. -/
def onmessage (st : PlaybackState) (currentTime : ℚ) (m : ServerMessage) : StepResult :=
  let afterAudio : PlaybackState × List (ℕ × ℚ) :=
    match m.audioDur with
    | some dur =>
        let t := max st.nextStartTime currentTime
        (⟨t + dur, st.sources ++ [st.counter], st.counter + 1⟩, [(st.counter, t)])
    | none => (st, [])
  let st1 := afterAudio.1
  if m.interrupted then
    { state := ⟨0, [], st1.counter⟩
      started := afterAudio.2
      stopped := st1.sources
      cbInput := m.inputTranscription
      cbOutput := m.outputTranscription
      cbTurnComplete := m.turnComplete }
  else
    { state := st1
      started := afterAudio.2
      stopped := []
      cbInput := m.inputTranscription
      cbOutput := m.outputTranscription
      cbTurnComplete := m.turnComplete }

/-- An audio-only message: carries an audio chunk and no interruption
signal (the shape C1 quantifies over). -/
def audioMsg (d : ℚ) : ServerMessage :=
  { audioDur := some d
    interrupted := false
    inputTranscription := none
    outputTranscription := none
    turnComplete := false }

/-- Feeding a sequence of audio chunks through `onmessage`: `chunks` pairs
each message's output-context `currentTime` with the decoded duration of
its audio.  Returns the resulting playback schedule, pairing each started
source's scheduled start time with its buffer duration. -/
def playbackRun (st : PlaybackState) : List (ℚ × ℚ) → List (ℚ × ℚ)
  | [] => []
  | (t, d) :: rest =>
      let r := onmessage st t (audioMsg d)
      r.started.map (fun p => (p.2, d)) ++ playbackRun r.state rest

/-- The schedule recursion in closed form: each chunk starts at
`max n currentTime` where `n` is the running next-start time, which then
advances by the chunk's duration. -/
def scheduleAux (n : ℚ) : List (ℚ × ℚ) → List (ℚ × ℚ)
  | [] => []
  | (t, d) :: rest => (max n t, d) :: scheduleAux (max n t + d) rest

lemma playbackRun_eq_scheduleAux (st : PlaybackState) (chunks : List (ℚ × ℚ)) :
    playbackRun st chunks = scheduleAux st.nextStartTime chunks := by
  induction chunks generalizing st with
  | nil => rfl
  | cons p rest ih =>
      obtain ⟨t, d⟩ := p
      simp [playbackRun, scheduleAux, onmessage, audioMsg, ih]

lemma scheduleAux_length (n : ℚ) (chunks : List (ℚ × ℚ)) :
    (scheduleAux n chunks).length = chunks.length := by
  induction chunks generalizing n with
  | nil => rfl
  | cons p rest ih => obtain ⟨t, d⟩ := p; simp [scheduleAux, ih]

lemma scheduleAux_snd (n : ℚ) (chunks : List (ℚ × ℚ)) (i : ℕ)
    (h : i < chunks.length) :
    ((scheduleAux n chunks).getD i (0, 0)).2 = (chunks.getD i (0, 0)).2 := by
  induction chunks generalizing n i with
  | nil => simp at h
  | cons p rest ih =>
      obtain ⟨t, d⟩ := p
      cases i with
      | zero => simp [scheduleAux]
      | succ j =>
          simp only [scheduleAux, List.getD_cons_succ]
          exact ih _ j (by simpa using h)

lemma scheduleAux_pair (n : ℚ) (chunks : List (ℚ × ℚ)) (i : ℕ)
    (h : i + 1 < chunks.length) :
    ((scheduleAux n chunks).getD i (0, 0)).1 + ((scheduleAux n chunks).getD i (0, 0)).2
        ≤ ((scheduleAux n chunks).getD (i + 1) (0, 0)).1
    ∧ ((chunks.getD (i + 1) (0, 0)).1
          ≤ ((scheduleAux n chunks).getD i (0, 0)).1 + ((scheduleAux n chunks).getD i (0, 0)).2 →
        ((scheduleAux n chunks).getD (i + 1) (0, 0)).1
          = ((scheduleAux n chunks).getD i (0, 0)).1 + ((scheduleAux n chunks).getD i (0, 0)).2) := by
  induction chunks generalizing n i with
  | nil => simp at h
  | cons p rest ih =>
      obtain ⟨t, d⟩ := p
      cases i with
      | zero =>
          match rest, h with
          | (t', d') :: rest', _ =>
              constructor
              · simp [scheduleAux, le_max_left]
              · intro hle
                simp only [scheduleAux, List.getD_cons_zero, List.getD_cons_succ] at hle ⊢
                exact max_eq_left hle
      | succ j =>
          simp only [scheduleAux, List.getD_cons_succ]
          exact ih _ j (by simpa using h)

/-- C1: absent an interruption signal, each audio chunk is scheduled at
`max (previous end time) currentTime` and the next start time advances by
exactly the decoded buffer's duration, so the schedule has one entry per
chunk, consecutive start times are monotone (given nonnegative durations),
intervals never overlap, and no gap opens while the previous buffer is
still pending (next chunk arriving at `currentTime` at or before the
previous scheduled end time starts exactly at that end time). -/
theorem playback_schedule_monotone_no_overlap_no_gap
    (st : PlaybackState) (chunks : List (ℚ × ℚ))
    (hdur : ∀ p ∈ chunks, 0 ≤ p.2) (i : ℕ) (h : i + 1 < chunks.length) :
    (playbackRun st chunks).length = chunks.length
    ∧ ((playbackRun st chunks).getD i (0, 0)).1 + ((playbackRun st chunks).getD i (0, 0)).2
        ≤ ((playbackRun st chunks).getD (i + 1) (0, 0)).1
    ∧ ((playbackRun st chunks).getD i (0, 0)).1 ≤ ((playbackRun st chunks).getD (i + 1) (0, 0)).1
    ∧ ((chunks.getD (i + 1) (0, 0)).1
          ≤ ((playbackRun st chunks).getD i (0, 0)).1 + ((playbackRun st chunks).getD i (0, 0)).2 →
        ((playbackRun st chunks).getD (i + 1) (0, 0)).1
          = ((playbackRun st chunks).getD i (0, 0)).1 + ((playbackRun st chunks).getD i (0, 0)).2) := by
  rw [playbackRun_eq_scheduleAux]
  obtain ⟨hov, hgap⟩ := scheduleAux_pair st.nextStartTime chunks i h
  refine ⟨scheduleAux_length _ _, hov, ?_, hgap⟩
  have hd : 0 ≤ ((scheduleAux st.nextStartTime chunks).getD i (0, 0)).2 := by
    rw [scheduleAux_snd _ _ _ (Nat.lt_of_succ_lt h)]
    have hmem : chunks.getD i (0, 0) ∈ chunks := by
      rw [List.getD_eq_getElem chunks (0, 0) (Nat.lt_of_succ_lt h)]
      exact List.getElem_mem _
    exact hdur _ hmem
  linarith

/-- C1 witness: a concrete two-chunk run through the handler. -/
theorem playback_schedule_witness :
    (∀ p ∈ [((0 : ℚ), (1 : ℚ)), (2, 1)], 0 ≤ p.2) ∧ 0 + 1 < [((0 : ℚ), (1 : ℚ)), (2, 1)].length ∧
    ((playbackRun ⟨0, [], 0⟩ [((0 : ℚ), (1 : ℚ)), (2, 1)]).length = 2
    ∧ ((playbackRun ⟨0, [], 0⟩ [((0 : ℚ), (1 : ℚ)), (2, 1)]).getD 0 (0, 0)).1
        + ((playbackRun ⟨0, [], 0⟩ [((0 : ℚ), (1 : ℚ)), (2, 1)]).getD 0 (0, 0)).2
        ≤ ((playbackRun ⟨0, [], 0⟩ [((0 : ℚ), (1 : ℚ)), (2, 1)]).getD 1 (0, 0)).1
    ∧ ((playbackRun ⟨0, [], 0⟩ [((0 : ℚ), (1 : ℚ)), (2, 1)]).getD 0 (0, 0)).1
        ≤ ((playbackRun ⟨0, [], 0⟩ [((0 : ℚ), (1 : ℚ)), (2, 1)]).getD 1 (0, 0)).1
    ∧ (([((0 : ℚ), (1 : ℚ)), (2, 1)].getD 1 (0, 0)).1
          ≤ ((playbackRun ⟨0, [], 0⟩ [((0 : ℚ), (1 : ℚ)), (2, 1)]).getD 0 (0, 0)).1
            + ((playbackRun ⟨0, [], 0⟩ [((0 : ℚ), (1 : ℚ)), (2, 1)]).getD 0 (0, 0)).2 →
        ((playbackRun ⟨0, [], 0⟩ [((0 : ℚ), (1 : ℚ)), (2, 1)]).getD 1 (0, 0)).1
          = ((playbackRun ⟨0, [], 0⟩ [((0 : ℚ), (1 : ℚ)), (2, 1)]).getD 0 (0, 0)).1
            + ((playbackRun ⟨0, [], 0⟩ [((0 : ℚ), (1 : ℚ)), (2, 1)]).getD 0 (0, 0)).2)) :=
  ⟨by decide, by decide,
    playback_schedule_monotone_no_overlap_no_gap ⟨0, [], 0⟩ _ (by decide) 0 (by decide)⟩

/-- C2: on a message carrying the interruption signal, `onmessage` stops
every tracked source (including one created from audio carried in the same
message), empties the pending set and resets `nextStartTime` to `0`. -/
theorem interrupted_stops_all_and_resets
    (st : PlaybackState) (currentTime : ℚ) (m : ServerMessage)
    (hint : m.interrupted = true) :
    (onmessage st currentTime m).state.sources = []
    ∧ (onmessage st currentTime m).state.nextStartTime = 0
    ∧ (onmessage st currentTime m).stopped
        = st.sources ++ (if m.audioDur.isSome then [st.counter] else [])
    ∧ (∀ s ∈ st.sources, s ∈ (onmessage st currentTime m).stopped)
    ∧ (∀ p ∈ (onmessage st currentTime m).started, p.1 ∈ (onmessage st currentTime m).stopped) := by
  cases hA : m.audioDur with
  | none => simp [onmessage, hint, hA]
  | some d =>
      simp only [onmessage, hint, hA, Option.isSome_some, if_true]
      refine ⟨trivial, trivial, trivial, ?_, ?_⟩
      · intro s hs
        exact List.mem_append_left _ hs
      · intro p hp
        simp only [List.mem_singleton] at hp
        subst hp
        exact List.mem_append_right _ (List.mem_singleton_self _)

/-- C2 witness: a message with both an audio chunk and the interruption
flag, against a state with two pending sources. -/
theorem interrupted_stops_all_witness :
    ((⟨some 1, true, none, none, false⟩ : ServerMessage).interrupted = true) ∧
    ((onmessage ⟨5, [0, 1], 2⟩ 3 ⟨some 1, true, none, none, false⟩).state.sources = []
    ∧ (onmessage ⟨5, [0, 1], 2⟩ 3 ⟨some 1, true, none, none, false⟩).state.nextStartTime = 0
    ∧ (onmessage ⟨5, [0, 1], 2⟩ 3 ⟨some 1, true, none, none, false⟩).stopped
        = [0, 1] ++ (if (some (1 : ℚ)).isSome then [2] else [])
    ∧ (∀ s ∈ [0, 1], s ∈ (onmessage ⟨5, [0, 1], 2⟩ 3 ⟨some 1, true, none, none, false⟩).stopped)
    ∧ (∀ p ∈ (onmessage ⟨5, [0, 1], 2⟩ 3 ⟨some 1, true, none, none, false⟩).started,
        p.1 ∈ (onmessage ⟨5, [0, 1], 2⟩ 3 ⟨some 1, true, none, none, false⟩).stopped)) :=
  ⟨rfl, interrupted_stops_all_and_resets ⟨5, [0, 1], 2⟩ 3 ⟨some 1, true, none, none, false⟩ rfl⟩

/-- JS truncation toward zero (`ToIntegerOrInfinity` on a finite number),
the first step of the abstract `ToInt16` coercion performed by an
assignment into an `Int16Array`. -/
def jsTrunc (q : ℚ) : ℤ := if 0 ≤ q then ⌊q⌋ else ⌈q⌉

/-- JS `ToInt16` coercion performed by `int16[i] = v`: truncate toward
zero, reduce modulo 2^16, reinterpret the residue as a signed 16-bit
value. -/
def toInt16 (q : ℚ) : ℤ :=
  let m := jsTrunc q % 65536
  if m < 32768 then m else m - 65536

/-- The indexed `for` loop of `createBlob`:
`for (i = 0; i < l; i++) int16[i] = data[i] * 32768`. -/
def int16Samples (data : List ℚ) : List ℤ :=
  (List.range data.length).map (fun i => toInt16 (data.getD i 0 * 32768))

/-- Byte view of one stored 16-bit sample, as `new Uint8Array(int16.buffer)`
reads it back on a little-endian platform: low byte first. -/
def int16ToBytesLE (v : ℤ) : List ℕ :=
  let u := (v % 65536).toNat
  [u % 256, u / 256]

/-- Byte view of the whole `Int16Array` buffer. -/
def bytesOfInt16 (xs : List ℤ) : List ℕ := (xs.map int16ToBytesLE).flatten

/-- Modelled from the spec: `encode` of `utils/audioUtils` is not under
`src/`; the spec calls the wire-encoding step "base64-encoding them", so
this is standard RFC 4648 base64 (with padding) over the byte sequence,
producing the 6-bit alphabet index list of each 3-byte group. -/
def base64Alphabet : List Char :=
  "ABCDEFGHIJKLMNOPQRSTUVWXYZabcdefghijklmnopqrstuvwxyz0123456789+/".toList

/-- One base64 output character for a 6-bit value. -/
def base64Char (n : ℕ) : Char := base64Alphabet.getD n '?'

/-- Modelled from the spec: base64 encoding of a byte list, 3 bytes to 4
characters, `'='`-padded. -/
def base64Encode : List ℕ → List Char
  | [] => []
  | [b0] => [base64Char (b0 / 4), base64Char (b0 % 4 * 16), '=', '=']
  | [b0, b1] =>
      [base64Char (b0 / 4), base64Char (b0 % 4 * 16 + b1 / 16), base64Char (b1 % 16 * 4), '=']
  | b0 :: b1 :: b2 :: rest =>
      base64Char (b0 / 4) :: base64Char (b0 % 4 * 16 + b1 / 16)
        :: base64Char (b1 % 16 * 4 + b2 / 64) :: base64Char (b2 % 64) :: base64Encode rest

/-- The `Blob` value `createBlob` returns: `data` (base64 text) and
`mimeType`. -/
structure WireBlob where
  data : String
  mimeType : String
deriving DecidableEq, Repr

/-- Source `geminiService`: `createBlob` — quantize each Float32 sample
with `int16[i] = data[i] * 32768`, view the `Int16Array` buffer as bytes,
base64-encode, and attach mime type `audio/pcm;rate=${INPUT_SAMPLE_RATE}`. -/
def createBlob (data : List ℚ) : WireBlob :=
  let int16 := int16Samples data
  { data := String.mk (base64Encode (bytesOfInt16 int16))
    mimeType := "audio/pcm;rate=" ++ toString INPUT_SAMPLE_RATE }

/-- The `onaudioprocess` handler body: read channel 0 of the input buffer
(whose length is the script processor's buffer size) and form the wire blob
sent to the session via `sendRealtimeInput`. -/
def onaudioprocess (frame : List ℚ) : WireBlob := createBlob frame

lemma int16Samples_eq_map (data : List ℚ) :
    int16Samples data = data.map (fun s => toInt16 (s * 32768)) := by
  induction data with
  | nil => rfl
  | cons a tl ih =>
      show List.map (fun i => toInt16 ((a :: tl).getD i 0 * 32768)) (List.range (tl.length + 1)) = _
      rw [List.range_succ_eq_map, List.map_cons, List.map_map]
      simp only [List.getD_cons_zero, List.map_cons]
      refine congrArg (toInt16 (a * 32768) :: ·) ?_
      have hcong : List.map ((fun i => toInt16 ((a :: tl).getD i 0 * 32768)) ∘ Nat.succ)
            (List.range tl.length)
          = List.map (fun i => toInt16 (tl.getD i 0 * 32768)) (List.range tl.length) :=
        List.map_congr_left (fun i _ => by simp [Function.comp, List.getD_cons_succ])
      rw [hcong]
      exact ih

lemma toInt16_mem_Ico (q : ℚ) : -32768 ≤ toInt16 q ∧ toInt16 q < 32768 := by
  unfold toInt16
  have h0 : (0 : ℤ) ≤ jsTrunc q % 65536 := Int.emod_nonneg _ (by norm_num)
  have h1 : jsTrunc q % 65536 < 65536 := Int.emod_lt_of_pos _ (by norm_num)
  by_cases h : jsTrunc q % 65536 < 32768 <;> simp [h] <;> omega

/-- C3: a microphone frame of the script processor's fixed buffer size
(4096 samples) is converted by `createBlob` into one signed 16-bit integer
per sample via `toInt16 (s * 32768)` (so 4096 values, each in
[-32768, 32768)), whose little-endian bytes are base64-encoded into the
blob's `data`, with mime type `audio/pcm;rate=16000`. -/
theorem createBlob_quantizes_and_encodes (frame : List ℚ)
    (hlen : frame.length = SCRIPT_PROCESSOR_BUFFER_SIZE) :
    (onaudioprocess frame).mimeType = "audio/pcm;rate=16000"
    ∧ int16Samples frame = frame.map (fun s => toInt16 (s * 32768))
    ∧ (int16Samples frame).length = 4096
    ∧ (∀ v ∈ int16Samples frame, -32768 ≤ v ∧ v < 32768)
    ∧ (onaudioprocess frame).data
        = String.mk (base64Encode (bytesOfInt16 (frame.map (fun s => toInt16 (s * 32768))))) := by
  refine ⟨rfl, int16Samples_eq_map frame, ?_, ?_, ?_⟩
  · rw [int16Samples_eq_map, List.length_map, hlen]
    rfl
  · intro v hv
    rw [int16Samples_eq_map] at hv
    obtain ⟨s, _, rfl⟩ := List.mem_map.mp hv
    exact toInt16_mem_Ico _
  · show (createBlob frame).data = _
    rw [createBlob, int16Samples_eq_map]

/-- C3 witness: the all-zero 4096-sample frame. -/
theorem createBlob_quantizes_witness :
    (List.replicate 4096 (0 : ℚ)).length = SCRIPT_PROCESSOR_BUFFER_SIZE
    ∧ ((onaudioprocess (List.replicate 4096 (0 : ℚ))).mimeType = "audio/pcm;rate=16000"
    ∧ int16Samples (List.replicate 4096 (0 : ℚ))
        = (List.replicate 4096 (0 : ℚ)).map (fun s => toInt16 (s * 32768))
    ∧ (int16Samples (List.replicate 4096 (0 : ℚ))).length = 4096
    ∧ (∀ v ∈ int16Samples (List.replicate 4096 (0 : ℚ)), -32768 ≤ v ∧ v < 32768)
    ∧ (onaudioprocess (List.replicate 4096 (0 : ℚ))).data
        = String.mk (base64Encode (bytesOfInt16
            ((List.replicate 4096 (0 : ℚ)).map (fun s => toInt16 (s * 32768)))))) :=
  ⟨by rw [List.length_replicate]; rfl,
    createBlob_quantizes_and_encodes _ (by rw [List.length_replicate]; rfl)⟩

/-- JS truthiness of a nullable string: `null` and `''` are falsy. -/
def strTruthy : Option String → Bool
  | none => false
  | some s => !s.isEmpty

/-- The pieces of `App` state the `onMessage` callback touches: the two
per-turn accumulator refs (`currentInputTranscriptionRef`,
`currentOutputTranscriptionRef`) and the committed
`transcriptionHistory`. -/
structure TranscriptState where
  curInput : String
  curOutput : String
  history : List TranscriptionEntry
deriving DecidableEq, Repr

/-- One invocation's arguments to the `App` `onMessage` callback: the
nullable transcript fragments and the turn-complete flag. -/
structure AppMsg where
  input : Option String
  output : Option String
  turnComplete : Bool
deriving DecidableEq, Repr

/-- Fragment accumulation: `if (fragment) { current += fragment; }`. -/
def accumFrag (cur : String) (frag : Option String) : String :=
  if strTruthy frag then cur ++ frag.getD "" else cur

/-- Source `App.handleStart`: the `onMessage` callback.  Truthy fragments
are appended to the accumulators; on `turnComplete` the trimmed
accumulators are committed (user entry first, each pushed only when
nonempty), the batch is appended to the history only when nonempty, and
both accumulators are reset to `''`.  The file-question side path
(`generateContentWithFiles`, taken only when files are uploaded and the
user spoke) performs external requests and appends their answer; it never
touches the accumulators and is elided here (no uploaded files). -/
def onMessageApp (st : TranscriptState) (m : AppMsg) : TranscriptState :=
  let ci := accumFrag st.curInput m.input
  let co := accumFrag st.curOutput m.output
  if m.turnComplete then
    let fullInput := ci.trim
    let fullOutput := co.trim
    let newHistory : List TranscriptionEntry :=
      (if !fullInput.isEmpty then [⟨Author.user, fullInput⟩] else [])
        ++ (if !fullOutput.isEmpty then [⟨Author.gemini, fullOutput⟩] else [])
    { curInput := ""
      curOutput := ""
      history := if newHistory.length > 0 then st.history ++ newHistory else st.history }
  else
    { curInput := ci, curOutput := co, history := st.history }

/-- A sequence of `onMessage` invocations, in arrival order. -/
def runMessages (st : TranscriptState) (msgs : List AppMsg) : TranscriptState :=
  msgs.foldl onMessageApp st

/-- In-order concatenation of the non-null fragments of a message
sequence. -/
def concatFrags : List (Option String) → String
  | [] => ""
  | none :: rest => concatFrags rest
  | some s :: rest => s ++ concatFrags rest

/-- C4: on a turn-complete message the trimmed accumulated transcripts are
committed as discrete history entries — the user entry first, each entry
appended exactly when its trimmed text is nonempty — and both accumulators
are reset to the empty string. -/
theorem turnComplete_commits_and_clears (st : TranscriptState) (m : AppMsg)
    (h : m.turnComplete = true) :
    (onMessageApp st m).curInput = ""
    ∧ (onMessageApp st m).curOutput = ""
    ∧ (onMessageApp st m).history = st.history
        ++ (if (accumFrag st.curInput m.input).trim ≠ ""
              then [⟨Author.user, (accumFrag st.curInput m.input).trim⟩] else [])
        ++ (if (accumFrag st.curOutput m.output).trim ≠ ""
              then [⟨Author.gemini, (accumFrag st.curOutput m.output).trim⟩] else []) := by
  have hb : ∀ s : String, s ≠ "" → s.isEmpty = false := by
    intro s hs
    cases hE : s.isEmpty
    · rfl
    · exact absurd ((String.isEmpty_iff _).mp hE) hs
  have e0 : "".isEmpty = true := rfl
  refine ⟨by simp [onMessageApp, h], by simp [onMessageApp, h], ?_⟩
  by_cases hi : (accumFrag st.curInput m.input).trim = "" <;>
    by_cases ho : (accumFrag st.curOutput m.output).trim = "" <;>
      simp [onMessageApp, h, hi, ho, e0, hb]

/-- C4 witness: a turn-complete message committing one user and one gemini
entry from previously accumulated text. -/
theorem turnComplete_commits_witness :
    (AppMsg.mk (some " there") none true).turnComplete = true
    ∧ ((onMessageApp ⟨"hi", "yo", []⟩ (AppMsg.mk (some " there") none true)).curInput = ""
    ∧ (onMessageApp ⟨"hi", "yo", []⟩ (AppMsg.mk (some " there") none true)).curOutput = ""
    ∧ (onMessageApp ⟨"hi", "yo", []⟩ (AppMsg.mk (some " there") none true)).history = []
        ++ (if (accumFrag "hi" (some " there")).trim ≠ ""
              then [⟨Author.user, (accumFrag "hi" (some " there")).trim⟩] else [])
        ++ (if (accumFrag "yo" none).trim ≠ ""
              then [⟨Author.gemini, (accumFrag "yo" none).trim⟩] else [])) :=
  ⟨rfl, turnComplete_commits_and_clears ⟨"hi", "yo", []⟩ (AppMsg.mk (some " there") none true) rfl⟩

lemma runMessages_accum (st : TranscriptState) (msgs : List AppMsg)
    (h : ∀ m ∈ msgs, m.turnComplete = false) :
    (runMessages st msgs).curInput = st.curInput ++ concatFrags (msgs.map (·.input))
    ∧ (runMessages st msgs).curOutput = st.curOutput ++ concatFrags (msgs.map (·.output)) := by
  induction msgs generalizing st with
  | nil => simp [runMessages, concatFrags]
  | cons m rest ih =>
      have hm : m.turnComplete = false := h m (List.mem_cons_self _ _)
      have hrest : ∀ m' ∈ rest, m'.turnComplete = false :=
        fun m' hm' => h m' (List.mem_cons_of_mem _ hm')
      have hstep : runMessages st (m :: rest) = runMessages (onMessageApp st m) rest := rfl
      obtain ⟨ih1, ih2⟩ := ih (onMessageApp st m) hrest
      rw [hstep]
      constructor
      · rw [ih1]
        simp only [onMessageApp, hm, if_false, Bool.false_eq_true, List.map_cons]
        cases hin : m.input with
        | none => simp [accumFrag, strTruthy, concatFrags]
        | some s =>
            by_cases hs : s.isEmpty
            · have : s = "" := (String.isEmpty_iff _).mp hs
              subst this
              simp [accumFrag, strTruthy, concatFrags]
            · simp [accumFrag, strTruthy, hs, concatFrags, String.append_assoc]
      · rw [ih2]
        simp only [onMessageApp, hm, if_false, Bool.false_eq_true, List.map_cons]
        cases hout : m.output with
        | none => simp [accumFrag, strTruthy, concatFrags]
        | some s =>
            by_cases hs : s.isEmpty
            · have : s = "" := (String.isEmpty_iff _).mp hs
              subst this
              simp [accumFrag, strTruthy, concatFrags]
            · simp [accumFrag, strTruthy, hs, concatFrags, String.append_assoc]

/-- C5: starting from the post-turn state (empty accumulators), after any
sequence of `onMessage` calls none of which completes a turn, the input
accumulator equals the in-order concatenation of the non-null input
fragments and the output accumulator the in-order concatenation of the
non-null output fragments. -/
theorem fragments_accumulate_in_order (hist : List TranscriptionEntry)
    (msgs : List AppMsg) (h : ∀ m ∈ msgs, m.turnComplete = false) :
    (runMessages ⟨"", "", hist⟩ msgs).curInput = concatFrags (msgs.map (·.input))
    ∧ (runMessages ⟨"", "", hist⟩ msgs).curOutput = concatFrags (msgs.map (·.output)) := by
  have := runMessages_accum ⟨"", "", hist⟩ msgs h
  simpa using this

/-- C5 witness: three fragment messages, one with a null input fragment. -/
theorem fragments_accumulate_witness :
    (∀ m ∈ [AppMsg.mk (some "he") (some "wo") false, AppMsg.mk none (some "rld") false,
        AppMsg.mk (some "llo") none false], m.turnComplete = false)
    ∧ ((runMessages ⟨"", "", []⟩ [AppMsg.mk (some "he") (some "wo") false,
          AppMsg.mk none (some "rld") false, AppMsg.mk (some "llo") none false]).curInput
        = concatFrags ([AppMsg.mk (some "he") (some "wo") false,
            AppMsg.mk none (some "rld") false, AppMsg.mk (some "llo") none false].map (·.input))
    ∧ (runMessages ⟨"", "", []⟩ [AppMsg.mk (some "he") (some "wo") false,
          AppMsg.mk none (some "rld") false, AppMsg.mk (some "llo") none false]).curOutput
        = concatFrags ([AppMsg.mk (some "he") (some "wo") false,
            AppMsg.mk none (some "rld") false, AppMsg.mk (some "llo") none false].map (·.output))) :=
  ⟨by decide, fragments_accumulate_in_order [] _ (by decide)⟩

/-- One externally visible action taken by an `App` callback. -/
inductive AppAction where
  | logError
  | setErrorText (msg : Option String)
  | setState (s : AppState)
  | stopSession
  | startSession
deriving DecidableEq, Repr

/-- Source `App.handleStart`: the `onError` callback — log the error, set
the banner text to a message embedding the SDK error's message, move the
app state to `ERROR`, and stop the held live session (clearing the ref)
when one is held.  No other action — in particular no reconnection — is
taken. -/
def onErrorApp (sessionHeld : Bool) (msg : String) : List AppAction :=
  [AppAction.logError,
    AppAction.setErrorText (some ("An error occurred: " ++ msg ++ ". Please try again.")),
    AppAction.setState AppState.ERROR]
    ++ (if sessionHeld then [AppAction.stopSession] else [])

/-- C6: every SDK-reported error is surfaced and nothing more: the banner
text is set to a message containing the SDK error's message, the app state
moves to `ERROR` (and to no other state), the held session is stopped, and
no session restart or other recovery is attempted. -/
theorem onError_surfaces_and_stops (msg : String) :
    (∃ pre post, AppAction.setErrorText (some (pre ++ msg ++ post)) ∈ onErrorApp true msg)
    ∧ AppAction.setState AppState.ERROR ∈ onErrorApp true msg
    ∧ AppAction.stopSession ∈ onErrorApp true msg
    ∧ (∀ held : Bool, AppAction.startSession ∉ onErrorApp held msg)
    ∧ (∀ held : Bool, ∀ s, AppAction.setState s ∈ onErrorApp held msg → s = AppState.ERROR) := by
  refine ⟨⟨"An error occurred: ", ". Please try again.", ?_⟩, ?_, ?_, ?_, ?_⟩
  · simp [onErrorApp]
  · simp [onErrorApp]
  · simp [onErrorApp]
  · intro held
    cases held <;> simp [onErrorApp]
  · intro held s hs
    cases held <;> simpa [onErrorApp] using hs

/-- C6 witness: the callback at the concrete SDK message `boom` with a
held session. -/
theorem onError_surfaces_witness :
    (∃ pre post, AppAction.setErrorText (some (pre ++ "boom" ++ post)) ∈ onErrorApp true "boom")
    ∧ AppAction.setState AppState.ERROR ∈ onErrorApp true "boom"
    ∧ AppAction.stopSession ∈ onErrorApp true "boom"
    ∧ (∀ held : Bool, AppAction.startSession ∉ onErrorApp held "boom")
    ∧ (∀ held : Bool, ∀ s, AppAction.setState s ∈ onErrorApp held "boom" → s = AppState.ERROR) :=
  onError_surfaces_and_stops "boom"

/-- C7: the data model is exactly a two-field message record and a
four-state enum: every `TranscriptionEntry` is its `author` ('user' or
'gemini') paired with its `text`, and `AppState` has exactly the four
states `IDLE`, `CONNECTING`, `CONNECTED`, `ERROR`. -/
theorem data_model_shape :
    (∀ e : TranscriptionEntry, e = ⟨e.author, e.text⟩)
    ∧ (∀ a : Author, a = Author.user ∨ a = Author.gemini)
    ∧ Fintype.card Author = 2
    ∧ (∀ s : AppState, s = AppState.IDLE ∨ s = AppState.CONNECTING
        ∨ s = AppState.CONNECTED ∨ s = AppState.ERROR)
    ∧ Fintype.card AppState = 4 := by
  refine ⟨fun e => rfl, fun a => ?_, by decide, fun s => ?_, by decide⟩
  · cases a
    · exact Or.inl rfl
    · exact Or.inr rfl
  · cases s
    · exact Or.inl rfl
    · exact Or.inr (Or.inl rfl)
    · exact Or.inr (Or.inr (Or.inl rfl))
    · exact Or.inr (Or.inr (Or.inr rfl))

/-- Lifecycle state of a browser `AudioContext`. -/
inductive CtxState where
  | suspended
  | running
  | closed
deriving DecidableEq, Repr

/-- A browser `AudioContext` object: an identity plus the sample rate it
was constructed with. -/
structure AudioContext where
  id : ℕ
  sampleRate : ℕ
deriving DecidableEq, Repr

/-- Source `geminiService`: `getOutputAudioContext` — the module-level
singleton: reuse the stored context unless none exists or its state is
`'closed'`, in which case construct a fresh one with
`sampleRate: OUTPUT_SAMPLE_RATE`.  The module variable
`outputAudioContext` is passed in explicitly and returned updated; `life`
reports each context's current lifecycle state (owned by the browser);
`fresh` is the identity a `new AudioContext` call would mint. -/
def getOutputAudioContext (g : Option AudioContext) (life : AudioContext → CtxState)
    (fresh : ℕ) : AudioContext × Option AudioContext :=
  match g with
  | none => (⟨fresh, OUTPUT_SAMPLE_RATE⟩, some ⟨fresh, OUTPUT_SAMPLE_RATE⟩)
  | some c =>
      if life c = CtxState.closed then
        (⟨fresh, OUTPUT_SAMPLE_RATE⟩, some ⟨fresh, OUTPUT_SAMPLE_RATE⟩)
      else (c, some c)

/-- C8: `getOutputAudioContext` is idempotent — a second call returns the
very context the first call returned, provided that context was not closed
in between — and a new context (at a 24000 Hz sample rate) is created
exactly when no context exists yet or the stored one is closed. -/
theorem getOutputAudioContext_idempotent (g : Option AudioContext)
    (life1 life2 : AudioContext → CtxState) (f1 f2 : ℕ)
    (hnc : life2 (getOutputAudioContext g life1 f1).1 ≠ CtxState.closed) :
    (getOutputAudioContext (getOutputAudioContext g life1 f1).2 life2 f2).1
        = (getOutputAudioContext g life1 f1).1
    ∧ (getOutputAudioContext g life1 f1).2 = some (getOutputAudioContext g life1 f1).1
    ∧ ((g = none ∨ ∃ c, g = some c ∧ life1 c = CtxState.closed) →
        (getOutputAudioContext g life1 f1).1 = ⟨f1, OUTPUT_SAMPLE_RATE⟩
          ∧ (getOutputAudioContext g life1 f1).1.sampleRate = 24000)
    ∧ (∀ c, g = some c → life1 c ≠ CtxState.closed →
        (getOutputAudioContext g life1 f1).1 = c) := by
  refine ⟨?_, ?_, ?_, ?_⟩
  · cases g with
    | none =>
        simp only [getOutputAudioContext] at hnc ⊢
        simp [hnc]
    | some c =>
        by_cases hc : life1 c = CtxState.closed <;>
          simp [getOutputAudioContext, hc] at hnc ⊢ <;> simp [hnc]
  · cases g with
    | none => rfl
    | some c => by_cases hc : life1 c = CtxState.closed <;> simp [getOutputAudioContext, hc]
  · rintro (rfl | ⟨c, rfl, hc⟩)
    · exact ⟨rfl, rfl⟩
    · simp [getOutputAudioContext, hc, OUTPUT_SAMPLE_RATE]
  · rintro c rfl hc
    simp [getOutputAudioContext, hc]

/-- C8 witness: a stored running context is returned unchanged by both
calls. -/
theorem getOutputAudioContext_witness :
    ((fun _ : AudioContext => CtxState.running)
        (getOutputAudioContext (some ⟨7, 24000⟩) (fun _ => CtxState.running) 9).1
      ≠ CtxState.closed)
    ∧ ((getOutputAudioContext
          (getOutputAudioContext (some ⟨7, 24000⟩) (fun _ => CtxState.running) 9).2
          (fun _ => CtxState.running) 11).1
        = (getOutputAudioContext (some ⟨7, 24000⟩) (fun _ => CtxState.running) 9).1
    ∧ (getOutputAudioContext (some ⟨7, 24000⟩) (fun _ => CtxState.running) 9).2
        = some (getOutputAudioContext (some ⟨7, 24000⟩) (fun _ => CtxState.running) 9).1
    ∧ ((some (⟨7, 24000⟩ : AudioContext) = none
          ∨ ∃ c, some (⟨7, 24000⟩ : AudioContext) = some c
              ∧ (fun _ : AudioContext => CtxState.running) c = CtxState.closed) →
        (getOutputAudioContext (some ⟨7, 24000⟩) (fun _ => CtxState.running) 9).1
          = ⟨9, OUTPUT_SAMPLE_RATE⟩
        ∧ (getOutputAudioContext (some ⟨7, 24000⟩)
            (fun _ => CtxState.running) 9).1.sampleRate = 24000)
    ∧ (∀ c, some (⟨7, 24000⟩ : AudioContext) = some c →
        (fun _ : AudioContext => CtxState.running) c ≠ CtxState.closed →
        (getOutputAudioContext (some ⟨7, 24000⟩) (fun _ => CtxState.running) 9).1 = c)) :=
  ⟨by decide,
    getOutputAudioContext_idempotent (some ⟨7, 24000⟩) (fun _ => CtxState.running)
      (fun _ => CtxState.running) 9 11 (by decide)⟩

/-- Inline data of one response part (`inlineData?.data`). -/
structure InlineData where
  data : Option String
deriving DecidableEq, Repr

/-- One part of a candidate content (`parts?.[0]?.inlineData`). -/
structure ResponsePart where
  inlineData : Option InlineData
deriving DecidableEq, Repr

/-- Candidate content (`content?.parts`). -/
structure ResponseContent where
  parts : Option (List ResponsePart)
deriving DecidableEq, Repr

/-- One response candidate (`candidates?.[0]?.content`). -/
structure Candidate where
  content : Option ResponseContent
deriving DecidableEq, Repr

/-- A `generateContent` response, reduced to the fields `generateSpeech`
reads. -/
structure GenerateContentResponse where
  candidates : Option (List Candidate)
deriving DecidableEq, Repr

/-- The optional chain
`response.candidates?.[0]?.content?.parts?.[0]?.inlineData?.data`
(`[0]` on an empty array yields `undefined`). -/
def firstInlineAudio (r : GenerateContentResponse) : Option String := do
  let cs ← r.candidates
  let c ← cs.head?
  let ct ← c.content
  let ps ← ct.parts
  let p ← ps.head?
  let il ← p.inlineData
  il.data

/-- Modelled from the spec: `decode` of `utils/audioUtils` is not under
`src/`; per the spec's playback path it is the inverse wire decoding,
standard base64 of 4 characters to 3 bytes with `'='` padding. -/
def base64Decode : List Char → List ℕ
  | c0 :: c1 :: c2 :: c3 :: rest =>
      let n0 := base64Alphabet.indexOf c0
      let n1 := base64Alphabet.indexOf c1
      if c2 = '=' then [n0 * 4 + n1 / 16]
      else
        let n2 := base64Alphabet.indexOf c2
        if c3 = '=' then [n0 * 4 + n1 / 16, n1 % 16 * 16 + n2 / 4]
        else
          (n0 * 4 + n1 / 16) :: (n1 % 16 * 16 + n2 / 4)
            :: (n2 % 4 * 64 + base64Alphabet.indexOf c3) :: base64Decode rest
  | _ => []

/-- A decoded `AudioBuffer`. -/
structure AudioBuffer where
  bytes : List ℕ
  sampleRate : ℕ
  channels : ℕ
deriving DecidableEq, Repr

/-- Modelled from the spec: `decodeAudioData` of `utils/audioUtils` is not
under `src/`; per the spec's playback path it decodes raw PCM bytes into an
`AudioBuffer` at the requested sample rate and channel count (the
`AudioContext` argument of the source signature carries no data used
here). -/
def decodeAudioData (bytes : List ℕ) (sampleRate : ℕ) (channels : ℕ) : AudioBuffer :=
  ⟨bytes, sampleRate, channels⟩

/-- Source `geminiService`: `generateSpeech` applied to the model response
— extract the first candidate's first part's inline audio, throw when it
is absent (or empty, JS falsiness), else decode it at
`OUTPUT_SAMPLE_RATE` with one channel. -/
def generateSpeech (r : GenerateContentResponse) : Except String AudioBuffer :=
  let base64Audio := firstInlineAudio r
  if strTruthy base64Audio then
    Except.ok (decodeAudioData (base64Decode ((base64Audio.getD "").toList))
      OUTPUT_SAMPLE_RATE 1)
  else
    Except.error "No audio data received from TTS API."

/-- C10: `generateSpeech` fails with exactly the message
`No audio data received from TTS API.` precisely when the optional chain
to the first candidate's first part yields no (nonempty) inline audio
datum; otherwise it returns the buffer decoded from that base64 datum at
24000 Hz with one channel. -/
theorem generateSpeech_error_iff (r : GenerateContentResponse) :
    (generateSpeech r = Except.error "No audio data received from TTS API."
      ↔ (firstInlineAudio r = none ∨ firstInlineAudio r = some ""))
    ∧ (∀ d, firstInlineAudio r = some d → d ≠ "" →
        generateSpeech r = Except.ok ⟨base64Decode d.toList, 24000, 1⟩)
    ∧ (∀ b, generateSpeech r = Except.ok b → b.sampleRate = 24000 ∧ b.channels = 1) := by
  have hb : ∀ s : String, s ≠ "" → s.isEmpty = false := by
    intro s hs
    cases hE : s.isEmpty
    · rfl
    · exact absurd ((String.isEmpty_iff _).mp hE) hs
  have e0 : "".isEmpty = true := rfl
  refine ⟨?_, ?_, ?_⟩
  · cases hA : firstInlineAudio r with
    | none => simp [generateSpeech, hA, strTruthy]
    | some s =>
        by_cases hs : s = ""
        · subst hs
          simp [generateSpeech, hA, strTruthy, e0]
        · simp [generateSpeech, hA, strTruthy, hb s hs, hs, decodeAudioData]
  · intro d hA hd
    simp [generateSpeech, hA, strTruthy, hb d hd, decodeAudioData, OUTPUT_SAMPLE_RATE]
  · intro b hB
    cases hA : firstInlineAudio r with
    | none => simp [generateSpeech, hA, strTruthy] at hB
    | some s =>
        by_cases hs : s = ""
        · subst hs
          simp [generateSpeech, hA, strTruthy, e0] at hB
        · simp [generateSpeech, hA, strTruthy, hb s hs, decodeAudioData,
            OUTPUT_SAMPLE_RATE] at hB
          rw [← hB]
          exact ⟨rfl, rfl⟩

/-- C10 witness: a response carrying the audio datum `AA==` in the first
part of the first candidate. -/
theorem generateSpeech_witness :
    ((generateSpeech ⟨some [⟨some ⟨some [⟨some ⟨some "AA=="⟩⟩]⟩⟩]⟩
        = Except.error "No audio data received from TTS API."
      ↔ (firstInlineAudio ⟨some [⟨some ⟨some [⟨some ⟨some "AA=="⟩⟩]⟩⟩]⟩ = none
          ∨ firstInlineAudio ⟨some [⟨some ⟨some [⟨some ⟨some "AA=="⟩⟩]⟩⟩]⟩ = some ""))
    ∧ (∀ d, firstInlineAudio ⟨some [⟨some ⟨some [⟨some ⟨some "AA=="⟩⟩]⟩⟩]⟩ = some d → d ≠ "" →
        generateSpeech ⟨some [⟨some ⟨some [⟨some ⟨some "AA=="⟩⟩]⟩⟩]⟩
          = Except.ok ⟨base64Decode d.toList, 24000, 1⟩)
    ∧ (∀ b, generateSpeech ⟨some [⟨some ⟨some [⟨some ⟨some "AA=="⟩⟩]⟩⟩]⟩ = Except.ok b →
        b.sampleRate = 24000 ∧ b.channels = 1)) :=
  generateSpeech_error_iff ⟨some [⟨some ⟨some [⟨some ⟨some "AA=="⟩⟩]⟩⟩]⟩

/-- A file selected through the upload input: its name plus a content
stamp distinguishing distinct uploads sharing a name. -/
structure JSFile where
  name : String
  content : ℕ
deriving DecidableEq, Repr

/-- JS `Map.set` on an insertion-ordered association list: update the
value at an existing key in place (keeping its position), else append the
new binding. -/
def mapSet : List (String × JSFile) → String → JSFile → List (String × JSFile)
  | [], k, v => [(k, v)]
  | (k', v') :: rest, k, v =>
      if k' = k then (k', v) :: rest else (k', v') :: mapSet rest k v

/-- Source `App.handleFileChange`:
`new Map(prevFiles.map(file => [file.name, file]))` — the `Map`
constructor `set`s each `[name, file]` entry in order. -/
def mapOfFiles (files : List JSFile) : List (String × JSFile) :=
  files.foldl (fun m f => mapSet m f.name f) []

/-- Source `App.handleFileChange`: build the name-keyed map of the
previous files, `set` each newly selected file, and return the map's
values in iteration order. -/
def handleFileChange (prevFiles newFiles : List JSFile) : List JSFile :=
  (newFiles.foldl (fun m f => mapSet m f.name f) (mapOfFiles prevFiles)).map (fun p => p.2)

/-- Source `App.handleRemoveFile`:
`prevFiles.filter(file => file.name !== fileName)`. -/
def handleRemoveFile (prevFiles : List JSFile) (fileName : String) : List JSFile :=
  prevFiles.filter (fun f => f.name != fileName)

/-- One user operation on the uploaded-files list. -/
inductive FileOp where
  | select (files : List JSFile)
  | remove (name : String)
deriving DecidableEq, Repr

/-- Dispatch of one operation to its handler. -/
def applyFileOp (files : List JSFile) : FileOp → List JSFile
  | FileOp.select chosen => handleFileChange files chosen
  | FileOp.remove n => handleRemoveFile files n

/-- A whole session of selections and removals, from the initial empty
list. -/
def applyFileOps (files : List JSFile) (ops : List FileOp) : List JSFile :=
  ops.foldl applyFileOp files

lemma mapSet_keys (m : List (String × JSFile)) (k : String) (v : JSFile) :
    (mapSet m k v).map (fun p => p.1)
      = if k ∈ m.map (fun p => p.1) then m.map (fun p => p.1)
        else m.map (fun p => p.1) ++ [k] := by
  induction m with
  | nil => simp [mapSet]
  | cons q rest ih =>
      obtain ⟨k', v'⟩ := q
      by_cases hk : k' = k
      · subst hk
        simp [mapSet]
      · simp only [mapSet, hk, if_false, List.map_cons, ih]
        have hne : ¬k = k' := fun h => hk h.symm
        by_cases hm : k ∈ rest.map (fun p => p.1) <;>
          simp [hm, hne, List.mem_cons]

lemma mapSet_keys_nodup (m : List (String × JSFile)) (k : String) (v : JSFile)
    (h : (m.map (fun p => p.1)).Nodup) : ((mapSet m k v).map (fun p => p.1)).Nodup := by
  rw [mapSet_keys]
  by_cases hm : k ∈ m.map (fun p => p.1)
  · simpa [hm] using h
  · simpa [hm, List.nodup_append] using h

lemma mapSet_named (m : List (String × JSFile)) (f : JSFile)
    (h : ∀ p ∈ m, (p.2).name = p.1) :
    ∀ p ∈ mapSet m f.name f, (p.2).name = p.1 := by
  induction m with
  | nil =>
      intro p hp
      have hE : p = (f.name, f) := List.mem_singleton.mp hp
      subst hE
      rfl
  | cons q rest ih =>
      obtain ⟨k', v'⟩ := q
      intro p hp
      by_cases hk : k' = f.name
      · subst hk
        simp only [mapSet, if_true] at hp
        rcases List.mem_cons.mp hp with rfl | hp'
        · rfl
        · exact h p (List.mem_cons_of_mem _ hp')
      · simp only [mapSet, hk, if_false] at hp
        rcases List.mem_cons.mp hp with rfl | hp'
        · exact h (k', v') (List.mem_cons_self _ _)
        · exact ih (fun q hq => h q (List.mem_cons_of_mem _ hq)) p hp'

lemma foldl_mapSet_good (newFiles : List JSFile) (m : List (String × JSFile))
    (hnd : (m.map (fun p => p.1)).Nodup) (hnm : ∀ p ∈ m, (p.2).name = p.1) :
    let m' := newFiles.foldl (fun acc f => mapSet acc f.name f) m
    ((m'.map (fun p => p.1)).Nodup ∧ ∀ p ∈ m', (p.2).name = p.1) := by
  induction newFiles generalizing m with
  | nil => exact ⟨hnd, hnm⟩
  | cons f rest ih =>
      exact ih (mapSet m f.name f) (mapSet_keys_nodup m f.name f hnd) (mapSet_named m f hnm)

lemma handleFileChange_names_nodup (prevFiles newFiles : List JSFile) :
    ((handleFileChange prevFiles newFiles).map (fun f => f.name)).Nodup := by
  have h0 := foldl_mapSet_good prevFiles [] (by simp) (by simp)
  have h1 := foldl_mapSet_good newFiles (mapOfFiles prevFiles) h0.1 h0.2
  obtain ⟨hnd, hnm⟩ := h1
  have : ((newFiles.foldl (fun acc f => mapSet acc f.name f) (mapOfFiles prevFiles)).map
        (fun p => p.2)).map (fun f => f.name)
      = (newFiles.foldl (fun acc f => mapSet acc f.name f) (mapOfFiles prevFiles)).map
        (fun p => p.1) := by
    rw [List.map_map]
    exact List.map_congr_left (fun p hp => hnm p hp)
  unfold handleFileChange
  rw [this]
  exact hnd

lemma mapSet_of_not_mem (m : List (String × JSFile)) (k : String) (v : JSFile)
    (h : k ∉ m.map (fun p => p.1)) : mapSet m k v = m ++ [(k, v)] := by
  induction m with
  | nil => rfl
  | cons q rest ih =>
      obtain ⟨k', v'⟩ := q
      have hk : ¬k' = k := by
        intro hE
        exact h (by simp [hE])
      simp only [mapSet, hk, if_false, List.cons_append]
      rw [ih (fun hm => h (by simp [hm]))]

lemma foldl_mapSet_append (files : List JSFile) (acc : List (String × JSFile))
    (hdisj : ∀ f ∈ files, f.name ∉ acc.map (fun p => p.1))
    (hnd : (files.map (fun f => f.name)).Nodup) :
    files.foldl (fun m f => mapSet m f.name f) acc
      = acc ++ files.map (fun g => (g.name, g)) := by
  induction files generalizing acc with
  | nil => simp
  | cons f rest ih =>
      have h1 : f.name ∉ acc.map (fun p => p.1) := hdisj f (List.mem_cons_self _ _)
      have hstep : mapSet acc f.name f = acc ++ [(f.name, f)] := mapSet_of_not_mem _ _ _ h1
      simp only [List.foldl_cons, hstep]
      rw [ih (acc ++ [(f.name, f)])]
      · simp
      · intro g hg
        simp only [List.map_append, List.mem_append, List.map_cons]
        rintro (hacc | hsing)
        · exact hdisj g (List.mem_cons_of_mem _ hg) hacc
        · have : g.name = f.name := by simpa using hsing
          have hnodup := hnd
          simp only [List.map_cons, List.nodup_cons] at hnodup
          exact hnodup.1 (this ▸ List.mem_map_of_mem (fun f' => f'.name) hg)
      · exact (by simpa using hnd : ((f :: rest).map (fun f' => f'.name)).Nodup).of_cons

lemma mapOfFiles_eq (prevFiles : List JSFile)
    (hnd : (prevFiles.map (fun f => f.name)).Nodup) :
    mapOfFiles prevFiles = prevFiles.map (fun g => (g.name, g)) := by
  unfold mapOfFiles
  rw [foldl_mapSet_append prevFiles [] (by simp) hnd]
  simp

lemma mapSet_update_of_mem (m : List (String × JSFile)) (k : String) (v : JSFile)
    (hnd : (m.map (fun p => p.1)).Nodup) (hmem : k ∈ m.map (fun p => p.1)) :
    mapSet m k v = m.map (fun p => if p.1 = k then (p.1, v) else p) := by
  induction m with
  | nil => simp at hmem
  | cons q rest ih =>
      obtain ⟨k', v'⟩ := q
      simp only [List.map_cons, List.nodup_cons] at hnd
      by_cases hk : k' = k
      · subst hk
        have hrest : ∀ p ∈ rest, ¬p.1 = k' := by
          intro p hp hE
          exact hnd.1 (hE ▸ List.mem_map_of_mem (fun q => q.1) hp)
        have hmap : rest.map (fun p => if p.1 = k' then (p.1, v) else p) = rest := by
          refine List.map_congr_left (fun p hp => ?_) |>.trans rest.map_id
          simp [hrest p hp]
        simp [mapSet, hmap]
      · have hm' : k ∈ rest.map (fun p => p.1) := by
          rw [List.map_cons] at hmem
          rcases List.mem_cons.mp hmem with hE | hm'
          · exact absurd hE.symm hk
          · exact hm'
        have hne : ¬k' = k := hk
        simp only [mapSet, hne, if_false, List.map_cons]
        rw [ih hnd.2 hm']

lemma handleFileChange_replaces (prevFiles : List JSFile) (f : JSFile)
    (hnd : (prevFiles.map (fun g => g.name)).Nodup)
    (hmem : f.name ∈ prevFiles.map (fun g => g.name)) :
    handleFileChange prevFiles [f]
      = prevFiles.map (fun g => if g.name = f.name then f else g) := by
  unfold handleFileChange
  have hkeys : (mapOfFiles prevFiles).map (fun p => p.1) = prevFiles.map (fun g => g.name) := by
    rw [mapOfFiles_eq prevFiles hnd, List.map_map]
    rfl
  have hnd' : ((mapOfFiles prevFiles).map (fun p => p.1)).Nodup := by rw [hkeys]; exact hnd
  have hmem' : f.name ∈ (mapOfFiles prevFiles).map (fun p => p.1) := by rw [hkeys]; exact hmem
  have hfold : [f].foldl (fun m g => mapSet m g.name g) (mapOfFiles prevFiles)
      = mapSet (mapOfFiles prevFiles) f.name f := rfl
  rw [hfold, mapSet_update_of_mem _ _ _ hnd' hmem', mapOfFiles_eq prevFiles hnd,
    List.map_map, List.map_map]
  refine List.map_congr_left (fun g _ => ?_)
  by_cases hg : g.name = f.name <;> simp [Function.comp, hg]

lemma nodup_names_step (files : List JSFile) (op : FileOp)
    (h : (files.map (fun f => f.name)).Nodup) :
    ((applyFileOp files op).map (fun f => f.name)).Nodup := by
  cases op with
  | select chosen => exact handleFileChange_names_nodup files chosen
  | remove n =>
      exact List.Nodup.sublist (List.Sublist.map _ (List.filter_sublist files)) h

/-- C9: file names in the uploaded list are pairwise distinct after any
sequence of selections and removals; selecting a file whose name is
already present replaces the entry of that name in place; removing by name
deletes every entry of that name and keeps all others, in order. -/
theorem uploadedFiles_names_distinct (ops : List FileOp) (prevFiles : List JSFile)
    (f : JSFile) (n : String)
    (hnd : (prevFiles.map (fun g => g.name)).Nodup)
    (hmem : f.name ∈ prevFiles.map (fun g => g.name)) :
    ((applyFileOps [] ops).map (fun g => g.name)).Nodup
    ∧ handleFileChange prevFiles [f]
        = prevFiles.map (fun g => if g.name = f.name then f else g)
    ∧ (∀ g ∈ handleRemoveFile prevFiles n, g.name ≠ n)
    ∧ (∀ g ∈ prevFiles, g.name ≠ n → g ∈ handleRemoveFile prevFiles n)
    ∧ List.Sublist (handleRemoveFile prevFiles n) prevFiles := by
  refine ⟨?_, handleFileChange_replaces prevFiles f hnd hmem, ?_, ?_, List.filter_sublist _⟩
  · suffices hgen : ∀ start : List JSFile, (start.map (fun g => g.name)).Nodup →
        ((applyFileOps start ops).map (fun g => g.name)).Nodup by
      exact hgen [] (by simp)
    induction ops with
    | nil => intro start h; exact h
    | cons op rest ih =>
        intro start h
        exact ih (applyFileOp start op) (nodup_names_step start op h)
  · intro g hg
    have := List.of_mem_filter hg
    simpa using this
  · intro g hg hne
    refine List.mem_filter.mpr ⟨hg, ?_⟩
    simpa using hne

/-- C9 witness: replace `a`, then remove `b`, on a two-file list. -/
theorem uploadedFiles_names_witness :
    ([⟨"a", 1⟩, ⟨"b", 2⟩].map (fun g : JSFile => g.name)).Nodup
    ∧ (⟨"a", 3⟩ : JSFile).name ∈ [⟨"a", 1⟩, ⟨"b", 2⟩].map (fun g : JSFile => g.name)
    ∧ (((applyFileOps [] [FileOp.select [⟨"a", 3⟩], FileOp.remove "b"]).map
          (fun g => g.name)).Nodup
    ∧ handleFileChange [⟨"a", 1⟩, ⟨"b", 2⟩] [⟨"a", 3⟩]
        = [⟨"a", 1⟩, ⟨"b", 2⟩].map (fun g => if g.name = (⟨"a", 3⟩ : JSFile).name
            then ⟨"a", 3⟩ else g)
    ∧ (∀ g ∈ handleRemoveFile [⟨"a", 1⟩, ⟨"b", 2⟩] "b", g.name ≠ "b")
    ∧ (∀ g ∈ [⟨"a", 1⟩, ⟨"b", 2⟩], g.name ≠ "b" →
        g ∈ handleRemoveFile [⟨"a", 1⟩, ⟨"b", 2⟩] "b")
    ∧ List.Sublist (handleRemoveFile [⟨"a", 1⟩, ⟨"b", 2⟩] "b") [⟨"a", 1⟩, ⟨"b", 2⟩]) :=
  ⟨by decide, by decide,
    uploadedFiles_names_distinct [FileOp.select [⟨"a", 3⟩], FileOp.remove "b"]
      [⟨"a", 1⟩, ⟨"b", 2⟩] ⟨"a", 3⟩ "b" (by decide) (by decide)⟩

end Voice
